import Mathlib

/-!
Verification of the per-shard storage engine adapter
(`storage/kv/kv_base_storage.go` of matrixcube): the framed byte codec
(`writeBytes` / `readBytes`), the split planner (`SplitCheck`), the snapshot
extractor (`CreateSnapshot` with `getAppliedIndex` / `getShardMetadata`) and
the snapshot applier (`ApplySnapshot`).

Bytes are modelled as `Nat`, byte strings as `List Nat`, the ordered KV store
as an association list sorted strictly by the lexicographic byte order, and a
file handle as the remaining byte stream together with a schedule of the
counts the virtual filesystem's `Read` may return (the vfs contract permits
short counts).  Store mutations issued by the applier are recorded as a trace
of operations so that ordering and atomicity can be stated.
-/

namespace MCube

/-- Lexicographic strict order on byte strings, as `bytes.Compare(a, b) < 0`. -/
def bytesLt : List Nat → List Nat → Bool
  | [], [] => false
  | [], _ :: _ => true
  | _ :: _, [] => false
  | a :: as, b :: bs => if a < b then true else if b < a then false else bytesLt as bs

/-- `a ≤ b` on byte strings, as `bytes.Compare(a, b) <= 0`. -/
def bytesLe (a b : List Nat) : Bool := !(bytesLt b a)

theorem bytesLt_irrefl : ∀ a : List Nat, bytesLt a a = false
  | [] => rfl
  | x :: as => by simp [bytesLt, bytesLt_irrefl as]

theorem bytesLt_trans : ∀ {a b c : List Nat},
    bytesLt a b = true → bytesLt b c = true → bytesLt a c = true := by
  intro a
  induction a with
  | nil =>
    intro b c hab hbc
    cases b with
    | nil => simp [bytesLt] at hab
    | cons y bs =>
      cases c with
      | nil => simp [bytesLt] at hbc
      | cons z cs => rfl
  | cons x as ih =>
    intro b c hab hbc
    cases b with
    | nil => simp [bytesLt] at hab
    | cons y bs =>
      cases c with
      | nil => simp [bytesLt] at hbc
      | cons z cs =>
        simp only [bytesLt] at hab hbc ⊢
        rcases Nat.lt_trichotomy x y with h1 | h1 | h1
        · rcases Nat.lt_trichotomy y z with h2 | h2 | h2
          · rw [if_pos (Nat.lt_trans h1 h2)]
          · subst h2; rw [if_pos h1]
          · rw [if_neg (Nat.lt_asymm h2), if_pos h2] at hbc
            exact (Bool.false_ne_true hbc).elim
        · subst h1
          rw [if_neg (Nat.lt_irrefl x), if_neg (Nat.lt_irrefl x)] at hab
          rcases Nat.lt_trichotomy x z with h2 | h2 | h2
          · rw [if_pos h2]
          · subst h2
            rw [if_neg (Nat.lt_irrefl x), if_neg (Nat.lt_irrefl x)] at hbc ⊢
            exact ih hab hbc
          · rw [if_neg (Nat.lt_asymm h2), if_pos h2] at hbc
            exact (Bool.false_ne_true hbc).elim
        · rw [if_neg (Nat.lt_asymm h1), if_pos h1] at hab
          exact (Bool.false_ne_true hab).elim

theorem bytesLt_asymm {a b : List Nat} (h : bytesLt a b = true) : bytesLt b a = false := by
  cases hba : bytesLt b a with
  | false => rfl
  | true =>
    have := bytesLt_trans h hba
    rw [bytesLt_irrefl] at this
    exact absurd this (by simp)

theorem bytesLt_total : ∀ a b : List Nat,
    bytesLt a b = true ∨ a = b ∨ bytesLt b a = true
  | [], [] => Or.inr (Or.inl rfl)
  | [], _ :: _ => Or.inl rfl
  | _ :: _, [] => Or.inr (Or.inr rfl)
  | x :: as, y :: bs => by
    rcases Nat.lt_trichotomy x y with h | h | h
    · exact Or.inl (by simp [bytesLt, h])
    · subst h
      rcases bytesLt_total as bs with h2 | h2 | h2
      · exact Or.inl (by simp [bytesLt, h2])
      · exact Or.inr (Or.inl (by rw [h2]))
      · exact Or.inr (Or.inr (by simp [bytesLt, h2]))
    · exact Or.inr (Or.inr (by simp [bytesLt, h]))

theorem bytesLe_refl (a : List Nat) : bytesLe a a = true := by
  simp [bytesLe, bytesLt_irrefl]

theorem bytesLe_of_lt {a b : List Nat} (h : bytesLt a b = true) : bytesLe a b = true := by
  simp [bytesLe, bytesLt_asymm h]

theorem bytesNe_of_lt {a b : List Nat} (h : bytesLt a b = true) : a ≠ b := by
  intro he; subst he; rw [bytesLt_irrefl] at h; exact absurd h (by simp)

theorem bytesLe_lt_trans {a b c : List Nat}
    (hab : bytesLe a b = true) (hbc : bytesLt b c = true) : bytesLt a c = true := by
  simp only [bytesLe, Bool.not_eq_true'] at hab
  rcases bytesLt_total a b with h | h | h
  · exact bytesLt_trans h hbc
  · subst h; exact hbc
  · rw [h] at hab; cases hab

theorem bytesLe_cons_not_nil {a : List Nat} {x : Nat} {l : List Nat}
    (h : bytesLe (x :: l) a = true) : a ≠ [] := by
  intro he; subst he; simp [bytesLe, bytesLt] at h

/-! ## The framed byte codec (`writeBytes` / `readBytes`) -/

/-- Big-endian decoding of a 4-byte buffer, as `binary.BigEndian.Uint32`. -/
def beU32dec : List Nat → Nat
  | [a, b, c, d] => ((a * 256 + b) * 256 + c) * 256 + d
  | _ => 0

/-- Big-endian encoding of a length into 4 bytes; the `% 2 ^ 32` is the
`uint32(len(data))` conversion of the Go code. -/
def beBytes32 (n : Nat) : List Nat :=
  let m := n % 2 ^ 32
  [m / 2 ^ 24, m / 2 ^ 16 % 256, m / 2 ^ 8 % 256, m % 256]

theorem beU32dec_beBytes32 (n : Nat) : beU32dec (beBytes32 n) = n % 2 ^ 32 := by
  simp only [beBytes32, beU32dec]
  omega

theorem beBytes32_length (n : Nat) : (beBytes32 n).length = 4 := rfl

/-- A virtual file opened for reading: the remaining bytes and a schedule of
how many bytes each successive `Read` call returns.  An empty schedule means
the reader always fills as much of the buffer as the remaining data allows;
a schedule entry models the short counts the vfs contract permits. -/
structure RFile where
  data : List Nat
  sched : List Nat
deriving DecidableEq

/-- One blocking `Read(buf)` call with buffer capacity `cap`: returns the bytes
filled, whether end-of-file was observed (`io.EOF` with a zero count), and the
advanced file. -/
def fileRead (f : RFile) (cap : Nat) : List Nat × Bool × RFile :=
  let want := match f.sched with
    | [] => cap
    | c :: _ => min c cap
  let n := min want f.data.length
  (f.data.take n, f.data.length == 0, ⟨f.data.drop n, f.sched.tail⟩)

/-- The payload loop of `readBytes`: keep calling `Read` on the unfilled part
of the buffer until `total` bytes are gathered.  The Go loop tolerates
`io.EOF` and keeps spinning, so on a stream that can never deliver `total`
bytes it diverges; exhausting the fuel (`none`) models that divergence. -/
def readLoop : Nat → RFile → List Nat → Nat → Option (List Nat × RFile)
  | 0, _, _, _ => none
  | fuel + 1, f, acc, total =>
    let r := fileRead f (total - acc.length)
    let acc2 := acc ++ r.1
    if acc2.length = total then some (acc2, r.2.2)
    else readLoop fuel r.2.2 acc2 total

/-- `readBytes`: a single `Read` for the 4-byte big-endian length prefix — the
sentinel `none` is produced exactly when that read returns 0 bytes at
end-of-stream (`n == 0 && err == io.EOF`) — then the payload loop.  Bytes of
the prefix buffer the read did not fill keep their zero initialisation, as in
the Go `make([]byte, 4)` buffer. -/
def readBytes (fuel : Nat) (f : RFile) : Option (Option (List Nat) × RFile) :=
  let r := fileRead f 4
  if r.1.length = 0 ∧ r.2.1 = true then some (none, r.2.2)
  else
    let total := beU32dec (r.1 ++ List.replicate (4 - r.1.length) 0)
    match readLoop fuel r.2.2 [] total with
    | none => none
    | some (data, f2) => some (some data, f2)

/-- `writeBytes`: emit the 4-byte big-endian length, then the raw bytes. -/
def writeBytes (data : List Nat) : List Nat := beBytes32 data.length ++ data

theorem readBytes_nil (fuel : Nat) (sched : List Nat) :
    readBytes fuel ⟨[], sched⟩ = some (none, ⟨[], sched.tail⟩) := by
  simp [readBytes, fileRead]

/-- A single iteration of the payload loop suffices against the full-count
reader when the stream holds at least `total` bytes. -/
theorem readLoop_greedy (fuel : Nat) (bytes : List Nat) (total : Nat)
    (ht : total ≤ bytes.length) :
    readLoop (fuel + 1) ⟨bytes, []⟩ [] total =
      some (bytes.take total, ⟨bytes.drop total, []⟩) := by
  simp only [readLoop, fileRead, List.length_nil, Nat.sub_zero, List.nil_append, List.tail_nil]
  rw [Nat.min_eq_left ht]
  rw [if_pos (List.length_take_of_le ht)]

/-- Master framing lemma for a full-count reader: reading a frame written for
`data` yields the first `data.length % 2 ^ 32` bytes of `data` and leaves the
rest of `data` (for an oversized blob) followed by the trailing stream. -/
theorem readBytes_writeBytes (fuel : Nat) (hf : 1 ≤ fuel) (data rest : List Nat) :
    readBytes fuel ⟨writeBytes data ++ rest, []⟩ =
      some (some (data.take (data.length % 2 ^ 32)),
            ⟨data.drop (data.length % 2 ^ 32) ++ rest, []⟩) := by
  obtain ⟨fuel, rfl⟩ : ∃ k, fuel = k + 1 := ⟨fuel - 1, by omega⟩
  have hL : data.length % 2 ^ 32 ≤ data.length := Nat.mod_le _ _
  simp only [writeBytes, List.append_assoc]
  simp only [readBytes, fileRead, List.nil_append, List.tail_nil]
  have hlen4 : (beBytes32 data.length ++ (data ++ rest)).length = 4 + (data ++ rest).length := by
    simp [beBytes32]; omega
  have htk : (beBytes32 data.length ++ (data ++ rest)).take 4 = beBytes32 data.length :=
    List.take_left' (beBytes32_length _)
  have hdp : (beBytes32 data.length ++ (data ++ rest)).drop 4 = data ++ rest :=
    List.drop_left' (beBytes32_length _)
  have hmin : min 4 (beBytes32 data.length ++ (data ++ rest)).length = 4 := by
    rw [hlen4]; omega
  rw [hmin, htk, hdp]
  have hne : ¬((beBytes32 data.length).length = 0 ∧
      ((beBytes32 data.length ++ (data ++ rest)).length == 0) = true) := by
    intro h
    rw [beBytes32_length] at h
    exact absurd h.1 (by omega)
  rw [if_neg hne]
  rw [beBytes32_length]
  simp only [Nat.sub_self, List.replicate_zero, List.append_nil, beU32dec_beBytes32]
  have hloop := readLoop_greedy fuel (data ++ rest) (data.length % 2 ^ 32)
    (by simp only [List.length_append]; omega)
  rw [hloop]
  rw [List.take_append_of_le_length hL, List.drop_append_of_le_length hL]

/-- Framing round-trip for the full-count reader, for blobs below `2 ^ 32`. -/
theorem readBytes_frame (fuel : Nat) (hf : 1 ≤ fuel) (data rest : List Nat)
    (hlen : data.length < 2 ^ 32) :
    readBytes fuel ⟨writeBytes data ++ rest, []⟩ = some (some data, ⟨rest, []⟩) := by
  have h := readBytes_writeBytes fuel hf data rest
  rw [Nat.mod_eq_of_lt hlen] at h
  simpa using h

/-! ## The split planner (`SplitCheck`) -/

/-- A `(key, value)` entry of the store. -/
abbrev KVPair := List Nat × List Nat

/-- The accumulator threaded through `SplitCheck`'s scan callback. -/
structure SCState where
  total : Nat
  keyCount : Nat
  sum : Nat
  appendSplitKey : Bool
  splitKeys : List (List Nat)
deriving DecidableEq

/-- The body of the `Scan` handler in `SplitCheck`: if the previous entry armed
the one-shot flag, emit this entry's key and reset the segment sum; then add
`len(key)+len(value)` to the segment sum and the totals, and arm the flag when
the segment sum reaches `size`. -/
def splitStep (size : Nat) (st : SCState) (e : KVPair) : SCState :=
  let st1 := if st.appendSplitKey then
      { st with splitKeys := st.splitKeys ++ [e.1], appendSplitKey := false, sum := 0 }
    else st
  let n := e.1.length + e.2.length
  let st2 := { st1 with
    sum := st1.sum + n
    total := st1.total + n
    keyCount := st1.keyCount + 1 }
  if size ≤ st2.sum then { st2 with appendSplitKey := true } else st2

/-- `SplitCheck` over the entries the scan of `[start, end)` delivers, in
order: returns `(total, keys, splitKeys)`. -/
def splitCheck (size : Nat) (entries : List KVPair) : Nat × Nat × List (List Nat) :=
  let st := entries.foldl (splitStep size) ⟨0, 0, 0, false, []⟩
  (st.total, st.keyCount, st.splitKeys)

/-- `Σ (len(key) + len(value))` over a list of entries. -/
def segSum (l : List KVPair) : Nat := (l.map (fun e => e.1.length + e.2.length)).sum

theorem splitStep_char (size : Nat) (st : SCState) (e : KVPair) :
    splitStep size st e =
      ⟨st.total + (e.1.length + e.2.length), st.keyCount + 1,
       (if st.appendSplitKey then 0 else st.sum) + (e.1.length + e.2.length),
       decide (size ≤ (if st.appendSplitKey then 0 else st.sum) + (e.1.length + e.2.length)),
       if st.appendSplitKey then st.splitKeys ++ [e.1] else st.splitKeys⟩ := by
  simp only [splitStep]
  cases harm : st.appendSplitKey <;> simp only [harm, Bool.false_eq_true, if_false, if_true] <;>
    split <;> rename_i h <;> simp_all

theorem foldl_splitStep_total (size : Nat) :
    ∀ (entries : List KVPair) (st : SCState),
      (entries.foldl (splitStep size) st).total = st.total + segSum entries
  | [], st => by simp [segSum]
  | e :: rest, st => by
    rw [List.foldl_cons, foldl_splitStep_total size rest, splitStep_char]
    simp only [segSum, List.map_cons, List.sum_cons]
    omega

theorem foldl_splitStep_count (size : Nat) :
    ∀ (entries : List KVPair) (st : SCState),
      (entries.foldl (splitStep size) st).keyCount = st.keyCount + entries.length
  | [], st => by simp
  | e :: rest, st => by
    rw [List.foldl_cons, foldl_splitStep_count size rest, splitStep_char]
    simp only [List.length_cons]
    omega

/-- Recursive view of the split-key emission: `sum` is the running segment sum
entering the next entry and `armed` the pending one-shot flag. -/
def scGo (size : Nat) : List KVPair → Nat → Bool → List (List Nat)
  | [], _, _ => []
  | e :: rest, sum, armed =>
    let base := if armed then 0 else sum
    let sum2 := base + (e.1.length + e.2.length)
    let ks := scGo size rest sum2 (decide (size ≤ sum2))
    if armed then e.1 :: ks else ks

theorem foldl_splitStep_splitKeys (size : Nat) :
    ∀ (entries : List KVPair) (st : SCState),
      (entries.foldl (splitStep size) st).splitKeys
        = st.splitKeys ++ scGo size entries st.sum st.appendSplitKey
  | [], st => by simp [scGo]
  | e :: rest, st => by
    rw [List.foldl_cons, foldl_splitStep_splitKeys size rest, splitStep_char]
    cases harm : st.appendSplitKey with
    | true =>
      simp only [harm, if_true, scGo, Nat.zero_add, List.append_assoc,
        List.cons_append, List.nil_append]
    | false =>
      simp only [harm, Bool.false_eq_true, if_false, scGo]

theorem splitCheck_total (size : Nat) (entries : List KVPair) :
    (splitCheck size entries).1 = segSum entries := by
  simp [splitCheck, foldl_splitStep_total]

theorem splitCheck_count (size : Nat) (entries : List KVPair) :
    (splitCheck size entries).2.1 = entries.length := by
  simp [splitCheck, foldl_splitStep_count]

theorem splitCheck_splitKeys (size : Nat) (entries : List KVPair) :
    (splitCheck size entries).2.2 = scGo size entries 0 false := by
  simp [splitCheck, foldl_splitStep_splitKeys]

theorem scGo_cons_false (size : Nat) (e : KVPair) (rest : List KVPair) (sum : Nat) :
    scGo size (e :: rest) sum false
      = scGo size rest (sum + (e.1.length + e.2.length))
          (decide (size ≤ sum + (e.1.length + e.2.length))) := by
  simp [scGo]

theorem scGo_cons_true (size : Nat) (e : KVPair) (rest : List KVPair) (sum : Nat) :
    scGo size (e :: rest) sum true
      = e.1 :: scGo size rest (e.1.length + e.2.length)
          (decide (size ≤ e.1.length + e.2.length)) := by
  simp [scGo]

/-- A scan segment as produced by the planner: its first entry (whose key is
the split key that opens it, for all segments after the first) and the rest. -/
def segList (p : KVPair × List KVPair) : List KVPair := p.1 :: p.2

theorem segSum_cons (e : KVPair) (l : List KVPair) :
    segSum (e :: l) = (e.1.length + e.2.length) + segSum l := by
  simp [segSum]

/-- Decomposition of the emitted split keys: the scanned entries split into a
leading segment `pre` and segments `segs`, each opened by the entry whose key
was emitted; every segment except the last accumulated at least `size`. -/
theorem scGo_decomp (size : Nat) :
    ∀ (n : Nat) (entries : List KVPair), entries.length ≤ n → ∀ (sum : Nat),
      ∃ (pre : List KVPair) (segs : List (KVPair × List KVPair)),
        entries = pre ++ (segs.map segList).flatten ∧
        scGo size entries sum false = segs.map (fun s => s.1.1) ∧
        (pre = [] → entries = []) ∧
        (segs ≠ [] → size ≤ sum + segSum pre) ∧
        (∀ p ∈ segs.dropLast, size ≤ segSum (segList p)) := by
  intro n
  induction n with
  | zero =>
    intro entries hlen sum
    have : entries = [] := List.length_eq_zero.mp (Nat.le_zero.mp hlen)
    subst this
    exact ⟨[], [], by simp, by simp [scGo], fun _ => rfl,
      fun h => absurd rfl h, by simp⟩
  | succ n ih =>
    intro entries hlen sum
    cases entries with
    | nil =>
      exact ⟨[], [], by simp, by simp [scGo], fun _ => rfl,
        fun h => absurd rfl h, by simp⟩
    | cons e rest =>
      rw [scGo_cons_false]
      by_cases hge : size ≤ sum + (e.1.length + e.2.length)
      · rw [decide_eq_true hge]
        cases rest with
        | nil =>
          exact ⟨[e], [], by simp, by simp [scGo], by simp,
            fun h => absurd rfl h, by simp⟩
        | cons e2 rest2 =>
          rw [scGo_cons_true]
          have hkey : scGo size (e2 :: rest2) 0 false
              = scGo size rest2 (e2.1.length + e2.2.length)
                  (decide (size ≤ e2.1.length + e2.2.length)) := by
            rw [scGo_cons_false, Nat.zero_add]
          have hlen2 : (e2 :: rest2).length ≤ n := by
            simp only [List.length_cons] at hlen ⊢
            omega
          obtain ⟨pre2, segs2, hdec, hks, hpre, htrig, hbud⟩ := ih (e2 :: rest2) hlen2 0
          rw [← hkey] at *
          cases pre2 with
          | nil => exact absurd (hpre rfl) (by simp)
          | cons ph pt =>
            have hph : ph = e2 ∧ pt ++ (segs2.map segList).flatten = rest2 := by
              rw [List.cons_append] at hdec
              exact ⟨(List.cons.injEq _ _ _ _ ▸ hdec).1.symm,
                ((List.cons.injEq _ _ _ _ ▸ hdec).2).symm⟩
            refine ⟨[e], (e2, pt) :: segs2, ?_, ?_, by simp, ?_, ?_⟩
            · simp only [List.map_cons, List.flatten_cons, segList,
                List.singleton_append, List.cons_append]
              rw [← hph.1]
              simp [hph.2]
            · rw [hks]
              rfl
            · intro _
              rw [segSum_cons]
              simpa [segSum] using hge
            · intro p hp
              cases segs2 with
              | nil => simp at hp
              | cons s2 ss2 =>
                rw [List.dropLast_cons₂] at hp
                rcases List.mem_cons.mp hp with h | h
                · subst h
                  have := htrig (by simp)
                  rw [Nat.zero_add] at this
                  simpa [segList, hph.1] using this
                · exact hbud p h
      · rw [decide_eq_false hge]
        have hlen2 : rest.length ≤ n := by
          simp only [List.length_cons] at hlen
          omega
        obtain ⟨pre2, segs2, hdec, hks, hpre, htrig, hbud⟩ :=
          ih rest hlen2 (sum + (e.1.length + e.2.length))
        refine ⟨e :: pre2, segs2, by simp [hdec], hks, by simp, ?_, hbud⟩
        intro hne
        rw [segSum_cons]
        have := htrig hne
        omega

theorem scGo_nil_of_below (size : Nat) :
    ∀ (entries : List KVPair) (sum : Nat), sum + segSum entries < size →
      scGo size entries sum false = []
  | [], _, _ => rfl
  | e :: rest, sum, h => by
    have hsum : sum + (e.1.length + e.2.length) + segSum rest < size := by
      simp only [segSum, List.map_cons, List.sum_cons] at h ⊢
      omega
    have hlt : ¬ size ≤ sum + (e.1.length + e.2.length) := by omega
    simp only [scGo, if_false, Bool.false_eq_true, Nat.zero_add]
    rw [decide_eq_false hlt]
    exact scGo_nil_of_below size rest _ hsum

theorem sum_le_of_sublist {l1 l2 : List Nat} (h : List.Sublist l1 l2) : l1.sum ≤ l2.sum := by
  induction h with
  | slnil => exact Nat.le_refl _
  | cons a h ih => simp only [List.sum_cons]; omega
  | cons₂ a h ih => simp only [List.sum_cons]; omega

theorem segSum_le_of_sublist {l1 l2 : List KVPair} (h : List.Sublist l1 l2) :
    segSum l1 ≤ segSum l2 :=
  sum_le_of_sublist (h.map _)

theorem chain'_of_zip {α : Type} {R : α → α → Prop} :
    ∀ l : List α, (∀ p ∈ l.zip l.tail, R p.1 p.2) → List.Chain' R l
  | [], _ => List.chain'_nil
  | [a], _ => List.chain'_singleton a
  | a :: b :: t, h => by
    rw [List.chain'_cons]
    refine ⟨h (a, b) (by simp), chain'_of_zip (b :: t) ?_⟩
    intro p hp
    exact h p (List.mem_cons_of_mem _ hp)

theorem forall₂_mem_right {α β : Type} {R : α → β → Prop} :
    ∀ {xs : List α} {ys : List β}, List.Forall₂ R xs ys → ∀ y ∈ ys, ∃ x ∈ xs, R x y := by
  intro xs ys h
  induction h with
  | nil => intro y hy; simp at hy
  | cons hr ht ih =>
    intro y hy
    rcases List.mem_cons.mp hy with h | h
    · subst h; exact ⟨_, List.mem_cons_self _ _, hr⟩
    · obtain ⟨x, hx, hp⟩ := ih y h
      exact ⟨x, List.mem_cons_of_mem _ hx, hp⟩

theorem forall₂_dropLast {α β : Type} {R : α → β → Prop} :
    ∀ {xs : List α} {ys : List β}, List.Forall₂ R xs ys →
      List.Forall₂ R xs.dropLast ys.dropLast := by
  intro xs
  induction xs with
  | nil => intro ys h; cases h; exact List.Forall₂.nil
  | cons a xs ih =>
    intro ys h
    cases h with
    | cons hr ht =>
      cases xs with
      | nil => cases ht; exact List.Forall₂.nil
      | cons a2 xs2 =>
        cases ht with
        | cons hr2 ht2 =>
          rw [List.dropLast_cons₂, List.dropLast_cons₂]
          exact List.Forall₂.cons hr (ih (List.Forall₂.cons hr2 ht2))

theorem zip_mem_append {α β : Type} :
    ∀ (xs : List α) (ys zs : List β) (p : α × β),
      p ∈ xs.zip ys → p ∈ xs.zip (ys ++ zs)
  | [], ys, zs, p, h => by simp [List.zip] at h
  | x :: xs, [], zs, p, h => by simp [List.zip] at h
  | x :: xs, y :: ys, zs, p, h => by
    rw [List.cons_append, List.zip_cons_cons] at *
    rcases List.mem_cons.mp h with h | h
    · exact h ▸ List.mem_cons_self _ _
    · exact List.mem_cons_of_mem _ (zip_mem_append xs ys zs p h)

theorem zip_bounds_dropLast {α : Type} (z : α) :
    ∀ (ks : List α) (lo : α),
      ((lo :: ks).zip (ks ++ [z])).dropLast = (lo :: ks).zip ks
  | [], lo => by simp
  | [k], lo => by simp
  | k :: k2 :: ks2, lo => by
    have ih := zip_bounds_dropLast z (k2 :: ks2) k
    simp only [List.cons_append, List.zip_cons_cons] at ih ⊢
    rw [List.dropLast_cons₂, ih]

/-- A planner segment `B` fits the boundary pair `p`: it is nonempty, all its
keys lie in `[p.1, p.2)`, and it is a sublist of the scanned entries. -/
def segOK (entries : List KVPair) (B : List KVPair) (p : List Nat × List Nat) : Prop :=
  B ≠ [] ∧ (∀ e ∈ B, bytesLe p.1 e.1 = true ∧ bytesLt e.1 p.2 = true) ∧ List.Sublist B entries

/-- Each block of the segment decomposition matches its boundary pair:
`pre` matches `(lo, k₁)`, the segment opened by `kᵢ` matches `(kᵢ, kᵢ₊₁)`,
and the final segment matches `(k_m, stopK)`. -/
theorem blocks_spec (stopK : List Nat) (entries : List KVPair)
    (hsort : entries.Pairwise (fun a b => bytesLt a.1 b.1 = true))
    (hhi : ∀ e ∈ entries, bytesLt e.1 stopK = true) :
    ∀ (segs : List (KVPair × List KVPair)) (C pre : List KVPair) (lo : List Nat),
      entries = C ++ (pre ++ (segs.map segList).flatten) →
      pre ≠ [] →
      (∀ e ∈ pre, bytesLe lo e.1 = true) →
      List.Forall₂ (segOK entries) (pre :: segs.map segList)
        ((lo :: segs.map (fun s => s.1.1)).zip (segs.map (fun s => s.1.1) ++ [stopK])) := by
  intro segs
  induction segs with
  | nil =>
    intro C pre lo hdec hpre hlo
    simp only [List.map_nil, List.flatten_nil, List.append_nil] at hdec
    simp only [List.map_nil, List.nil_append, List.zip_cons_cons, List.zip_nil_left]
    refine List.Forall₂.cons ⟨hpre, ?_, ?_⟩ List.Forall₂.nil
    · intro e he
      refine ⟨hlo e he, hhi e ?_⟩
      rw [hdec]
      exact List.mem_append_right _ he
    · rw [hdec]
      exact List.sublist_append_right C pre
  | cons s segs2 ih =>
    intro C pre lo hdec hpre hlo
    simp only [List.map_cons, List.flatten_cons] at hdec
    have hsubrest : List.Sublist (pre ++ (segList s ++ (segs2.map segList).flatten)) entries := by
      rw [hdec]; exact List.sublist_append_right C _
    have hcross : ∀ a ∈ pre, ∀ b ∈ segList s ++ (segs2.map segList).flatten,
        bytesLt a.1 b.1 = true :=
      ((List.pairwise_append).mp (hsort.sublist hsubrest)).2.2
    have hseg_sub : List.Sublist (segList s) entries := by
      have h1 : List.Sublist (segList s) (segList s ++ (segs2.map segList).flatten) :=
        List.sublist_append_left _ _
      have h2 : List.Sublist (segList s ++ (segs2.map segList).flatten)
          (pre ++ (segList s ++ (segs2.map segList).flatten)) :=
        List.sublist_append_right _ _
      exact (h1.trans h2).trans hsubrest
    have hseg_sorted : (segList s).Pairwise (fun a b => bytesLt a.1 b.1 = true) :=
      hsort.sublist hseg_sub
    have hseg_lo : ∀ e ∈ segList s, bytesLe s.1.1 e.1 = true := by
      intro e he
      rcases List.mem_cons.mp he with h | h
      · rw [h]; exact bytesLe_refl _
      · exact bytesLe_of_lt ((List.pairwise_cons.mp hseg_sorted).1 e h)
    simp only [List.map_cons, List.cons_append, List.zip_cons_cons]
    refine List.Forall₂.cons ⟨hpre, ?_, ?_⟩ ?_
    · intro e he
      refine ⟨hlo e he, hcross e he s.1 (List.mem_append_left _ (List.mem_cons_self _ _))⟩
    · refine List.Sublist.trans (List.sublist_append_left pre _) hsubrest
    · have hdec2 : entries = (C ++ pre) ++ (segList s ++ (segs2.map segList).flatten) := by
        rw [hdec, List.append_assoc]
      exact ih (C ++ pre) (segList s) s.1.1 hdec2 (by simp [segList]) hseg_lo

/-- C2: for every scan of `[start, end)` with positive target size `S`, the
split keys `k₁ < k₂ < … < k_m` returned by `SplitCheck` are strictly
increasing, every segment `[start, k₁), [k₁, k₂), …, [k_m, end)` (the boundary
pairs `(startK :: ks).zip (ks ++ [stopK])`) contains at least one scanned key,
and every segment except the last (the pairs `(startK :: ks).zip ks`, each
terminated by its split key) had accumulated at least `S` bytes of
`len(key) + len(value)` when its terminating split key was chosen. -/
theorem C2_split_soundness (size : Nat) (startK stopK : List Nat)
    (entries : List KVPair)
    (hpos : 0 < size)
    (hsort : entries.Pairwise (fun a b => bytesLt a.1 b.1 = true))
    (hlo : ∀ e ∈ entries, bytesLe startK e.1 = true)
    (hhi : ∀ e ∈ entries, bytesLt e.1 stopK = true)
    (hne : entries ≠ []) :
    List.Chain' (fun a b => bytesLt a b = true) (splitCheck size entries).2.2 ∧
    (∀ p ∈ (startK :: (splitCheck size entries).2.2).zip
              ((splitCheck size entries).2.2 ++ [stopK]),
       ∃ e ∈ entries, bytesLe p.1 e.1 = true ∧ bytesLt e.1 p.2 = true) ∧
    (∀ p ∈ (startK :: (splitCheck size entries).2.2).zip (splitCheck size entries).2.2,
       size ≤ segSum (entries.filter (fun e => bytesLe p.1 e.1 && bytesLt e.1 p.2))) := by
  rw [splitCheck_splitKeys]
  obtain ⟨pre, segs, hdec, hks, hpre0, htrig, hbud⟩ :=
    scGo_decomp size entries.length entries (Nat.le_refl _) 0
  rw [hks]
  have hpreNe : pre ≠ [] := fun h => hne (hpre0 h)
  have hpreLo : ∀ e ∈ pre, bytesLe startK e.1 = true := by
    intro e he
    refine hlo e ?_
    rw [hdec]
    exact List.mem_append_left _ he
  have mainF := blocks_spec stopK entries hsort hhi segs [] pre startK
    (by simpa using hdec) hpreNe hpreLo
  have hmem_full : ∀ p, p ∈ ((startK :: segs.map (fun s => s.1.1)).zip
      (segs.map (fun s => s.1.1) ++ [stopK])) →
      ∃ e ∈ entries, bytesLe p.1 e.1 = true ∧ bytesLt e.1 p.2 = true := by
    intro p hp
    obtain ⟨B, hB, hBne, hBbounds, hBsub⟩ := forall₂_mem_right mainF p hp
    obtain ⟨e, he⟩ := List.exists_mem_of_ne_nil B hBne
    exact ⟨e, hBsub.subset he, hBbounds e he⟩
  refine ⟨?_, hmem_full, ?_⟩
  · refine chain'_of_zip _ ?_
    intro p hp
    have hpfull : p ∈ ((startK :: segs.map (fun s => s.1.1)).zip
        (segs.map (fun s => s.1.1) ++ [stopK])) := by
      cases hmap : segs.map (fun s => s.1.1) with
      | nil => rw [hmap] at hp; simp at hp
      | cons k ks2 =>
        rw [hmap] at hp
        rw [List.cons_append, List.zip_cons_cons]
        exact List.mem_cons_of_mem _ (zip_mem_append _ _ _ _ hp)
    obtain ⟨e, _, helo, hehi⟩ := hmem_full p hpfull
    exact bytesLe_lt_trans helo hehi
  · intro p hp
    have mainF2 := forall₂_dropLast mainF
    rw [zip_bounds_dropLast] at mainF2
    obtain ⟨B, hB, hBne, hBbounds, hBsub⟩ := forall₂_mem_right mainF2 p hp
    have hBbudget : size ≤ segSum B := by
      cases hsegs : segs with
      | nil =>
        rw [hsegs] at hB
        simp at hB
      | cons s segs2 =>
        rw [hsegs] at hB
        simp only [List.map_cons, List.dropLast_cons₂] at hB
        rcases List.mem_cons.mp hB with h | h
        · subst h
          have := htrig (by rw [hsegs]; simp)
          rw [Nat.zero_add] at this
          exact this
        · rw [← List.map_cons, ← List.map_dropLast] at h
          obtain ⟨q, hq, hqe⟩ := List.mem_map.mp h
          rw [← hqe]
          exact hbud q (by rw [hsegs]; exact hq)
    have hfil : B.filter (fun e => bytesLe p.1 e.1 && bytesLt e.1 p.2) = B := by
      refine List.filter_eq_self.mpr ?_
      intro e he
      have := hBbounds e he
      simp [this.1, this.2]
    calc size ≤ segSum B := hBbudget
      _ = segSum (B.filter (fun e => bytesLe p.1 e.1 && bytesLt e.1 p.2)) := by rw [hfil]
      _ ≤ segSum (entries.filter (fun e => bytesLe p.1 e.1 && bytesLt e.1 p.2)) :=
          segSum_le_of_sublist (hBsub.filter _)

/-- The scanned entries of Scenario 4 of the spec: four entries of
`len(key) + len(value) = 4` bytes each. -/
def c2entries : List KVPair :=
  [([97], [1, 1, 1]), ([98], [2, 2, 2]), ([99], [3, 3, 3]), ([100], [4, 4, 4])]

theorem C2_split_soundness_witness :
    List.Chain' (fun a b => bytesLt a b = true) (splitCheck 10 c2entries).2.2 ∧
    (∀ p ∈ (([97] : List Nat) :: (splitCheck 10 c2entries).2.2).zip
              ((splitCheck 10 c2entries).2.2 ++ [[101]]),
       ∃ e ∈ c2entries, bytesLe p.1 e.1 = true ∧ bytesLt e.1 p.2 = true) ∧
    (∀ p ∈ (([97] : List Nat) :: (splitCheck 10 c2entries).2.2).zip
              (splitCheck 10 c2entries).2.2,
       10 ≤ segSum (c2entries.filter (fun e => bytesLe p.1 e.1 && bytesLt e.1 p.2))) :=
  C2_split_soundness 10 [97] [101] c2entries (by decide) (by decide) (by decide)
    (by decide) (by decide)

/-- C7: `SplitCheck` returns `total` equal to `Σ (len(key) + len(value))` over
the scanned entries and `keys` equal to the entry count; an empty range
returns `(0, 0, [])`, and a range whose total is below the target size
returns an empty split list. -/
theorem C7_split_totals (size : Nat) (entries : List KVPair) :
    (splitCheck size entries).1 = segSum entries ∧
    (splitCheck size entries).2.1 = entries.length ∧
    splitCheck size ([] : List KVPair) = (0, 0, []) ∧
    ((splitCheck size entries).1 < size → (splitCheck size entries).2.2 = []) := by
  refine ⟨splitCheck_total size entries, splitCheck_count size entries, rfl, ?_⟩
  intro h
  rw [splitCheck_total] at h
  rw [splitCheck_splitKeys]
  exact scGo_nil_of_below size entries 0 (by omega)

theorem C7_split_totals_witness :
    (splitCheck 10 [(([1], [2]) : KVPair)]).1 < 10 ∧
    (splitCheck 10 [(([1], [2]) : KVPair)]).2.2 = [] :=
  ⟨by decide, (C7_split_totals 10 [([1], [2])]).2.2.2 (by decide)⟩

/-! ## The store model and the snapshot extractor / applier -/

/-- The ordered KV store, as an association list; its invariant (maintained by
the underlying LSM store) is strict sortedness of the keys under `bytesLt`. -/
abbrev Store := List KVPair

/-- Point lookup (`Get`): the value of the first entry carrying the key. -/
def storeGet (st : Store) (k : List Nat) : Option (List Nat) :=
  (st.find? (fun e => e.1 == k)).map (fun e => e.2)

/-- `Set`: replace the bindings of an existing key, or append a new one. -/
def storeSet (st : Store) (k v : List Nat) : Store :=
  if st.any (fun e => e.1 == k) then
    st.map (fun e => if e.1 == k then (k, v) else e)
  else st ++ [(k, v)]

/-- `RangeDelete(lo, hi)`: drop every entry whose key lies in `[lo, hi)`. -/
def rangeDel (st : Store) (lo hi : List Nat) : Store :=
  st.filter (fun e => !(bytesLe lo e.1 && bytesLt e.1 hi))

/-- A store operation issued by the snapshot applier, with its `sync` flag. -/
inductive KVOp where
  | rangeDelete (lo hi : List Nat) (sync : Bool)
  | set (k v : List Nat) (sync : Bool)
  | sync
deriving DecidableEq

/-- Apply one traced operation to the store. -/
def applyOp (st : Store) : KVOp → Store
  | .rangeDelete lo hi _ => rangeDel st lo hi
  | .set k v _ => storeSet st k v
  | .sync => st

/-- Apply a trace of operations in order. -/
def applyOps (st : Store) (ops : List KVOp) : Store := ops.foldl applyOp st

/-- The errors `CreateSnapshot` can surface from its two in-view lookups:
`pebble.ErrNotFound` from the applied-index point get, and the distinct
`ErrNoMetadata` of the metadata search. -/
inductive CreateErr where
  | appliedIndexNotFound
  | noMetadata
deriving DecidableEq

/-- The format errors `ApplySnapshot` raises itself. -/
inductive SnapErr where
  | missingStart
  | missingEnd
  | missingValue
deriving DecidableEq

/-- Modelled from the spec: the key encoder (§4.B) and the metadata codec of
the shard-local state record (§6) live in the `keys`, `pb/meta` and
`util/buf` packages, outside the provided sources.  They enter the model as
opaque parameters: the applied-index key and the metadata seek key derived
from a shard id, the shard-id extraction from a metadata key
(`GetShardIDFromMetadataKey`, `none` being its decode error), and the
recovery of the shard's `[start, end)` range from the metadata value. -/
structure KeysCodec where
  appliedIndexKey : Nat → List Nat
  metadataSeekKey : Nat → List Nat
  shardIDFromMetadataKey : List Nat → Option Nat
  shardRangeOfMeta : List Nat → List Nat × List Nat

/-- `getAppliedIndex`: point get of the applied-index key under the view;
a missing key is the store's not-found error. -/
def getAppliedIndex (kc : KeysCodec) (st : Store) (shardID : Nat) :
    Except CreateErr (List Nat × List Nat) :=
  let key := kc.appliedIndexKey shardID
  match storeGet st key with
  | none => .error .appliedIndexNotFound
  | some v => .ok (key, v)

/-- `getShardMetadata`: iterate forward from the shard's metadata seek key
over the sorted view (the iterator with that lower bound delivers exactly the
entries whose key is `≥` the seek key, in order), remembering key and value of
every consecutive entry whose key still decodes to this shard id and stopping
at the first that does not; the Go code then reports `ErrNoMetadata` whenever
the remembered key or value is empty — which is how it detects that the loop
matched nothing. -/
def getShardMetadata (kc : KeysCodec) (st : Store) (shardID : Nat) :
    Except CreateErr (List Nat × List Nat) :=
  let it := st.filter (fun e => bytesLe (kc.metadataSeekKey shardID) e.1)
  let ms := it.takeWhile (fun e => kc.shardIDFromMetadataKey e.1 == some shardID)
  match ms.getLast? with
  | none => .error .noMetadata
  | some (k, v) => if v.length = 0 ∨ k.length = 0 then .error .noMetadata else .ok (k, v)

/-- The consecutive run of metadata entries for a shard, per the spec's words:
iterate forward from the shard's metadata seek key and keep every consecutive
entry whose key still decodes to this shard id. -/
def metadataRun (kc : KeysCodec) (st : Store) (shardID : Nat) : List KVPair :=
  (st.filter (fun e => bytesLe (kc.metadataSeekKey shardID) e.1)).takeWhile
    (fun e => kc.shardIDFromMetadataKey e.1 == some shardID)

/-- The bounded iterator `CreateSnapshot` opens on the view: the lower bound
`startK` and the upper bound `stopK` are set only when non-empty; on the
sorted view this delivers exactly the entries whose key lies in the requested
(half-open, possibly unbounded) range — the loop's explicit `>= end` break
merely re-checks the upper bound and never fires past it. -/
def snapIter (st : Store) (startK stopK : List Nat) : List KVPair :=
  let lo := if 0 < startK.length then st.filter (fun e => bytesLe startK e.1) else st
  if 0 < stopK.length then lo.filter (fun e => bytesLt e.1 stopK) else lo

/-- `buf.Byte2UInt64`: big-endian decoding of the first 8 bytes. -/
def byte2UInt64 (l : List Nat) : Nat :=
  (l.take 8).foldl (fun a b => a * 256 + b) 0

/-- `CreateSnapshot` over a point-in-time view of the store: look up the
applied-index record, locate the shard metadata, decode the shard's range,
frame the six header blobs, then frame every in-range `(key, value)` pair in
order.  Returns the produced file bytes and the decoded applied index. -/
def createSnapshot (kc : KeysCodec) (st : Store) (shardID : Nat) :
    Except CreateErr (List Nat × Nat) :=
  match getAppliedIndex kc st shardID with
  | .error e => .error e
  | .ok (appliedIndexKey, appliedIndexValue) =>
    match getShardMetadata kc st shardID with
    | .error e => .error e
    | .ok (metadataKey, metadataValue) =>
      let r := kc.shardRangeOfMeta metadataValue
      let body := (snapIter st r.1 r.2).map (fun e => writeBytes e.1 ++ writeBytes e.2)
      .ok (writeBytes r.1 ++ writeBytes r.2 ++ writeBytes appliedIndexKey ++
           writeBytes appliedIndexValue ++ writeBytes metadataKey ++
           writeBytes metadataValue ++ body.flatten,
           byte2UInt64 appliedIndexValue)

/-- The body loop of `ApplySnapshot`: read a key blob and stop when its length
is zero (which both the end-of-stream sentinel and a zero-length key blob
produce), else read a value blob — a zero-length value is a format error —
and issue a `set` with `sync = false`.  Returns the issued operations and the
error, if any; `none` means a blob read or the loop itself ran out of fuel. -/
def applyPairs : Nat → RFile → Option (List KVOp × Option SnapErr)
  | 0, _ => none
  | fuel + 1, f =>
    match readBytes (fuel + 1) f with
    | none => none
    | some (key?, f1) =>
      if (key?.getD []).length = 0 then some ([], none)
      else
        match readBytes (fuel + 1) f1 with
        | none => none
        | some (val?, f2) =>
          if (val?.getD []).length = 0 then some ([], some .missingValue)
          else
            match applyPairs fuel f2 with
            | none => none
            | some (ops, e) =>
              some (KVOp.set (key?.getD []) (val?.getD []) false :: ops, e)

/-- `ApplySnapshot` on the opened snapshot file: read the six header blobs —
with the strict format checks rejecting a zero-length `start` or `end` before
any store mutation — then issue the range delete and the two reserved-key
`set`s with `sync = false`, run the body loop, and finish with the single
`sync` barrier, issued only when everything before it succeeded.  The store
operations are returned as a trace, in issue order, with the error if any. -/
def applySnapshot (fuel : Nat) (f : RFile) : Option (List KVOp × Option SnapErr) :=
  match readBytes fuel f with
  | none => none
  | some (s?, f1) =>
    if (s?.getD []).length = 0 then some ([], some .missingStart)
    else
      match readBytes fuel f1 with
      | none => none
      | some (e?, f2) =>
        if (e?.getD []).length = 0 then some ([], some .missingEnd)
        else
          match readBytes fuel f2 with
          | none => none
          | some (aik?, f3) =>
            match readBytes fuel f3 with
            | none => none
            | some (aiv?, f4) =>
              match readBytes fuel f4 with
              | none => none
              | some (mk?, f5) =>
                match readBytes fuel f5 with
                | none => none
                | some (mv?, f6) =>
                  match applyPairs fuel f6 with
                  | none => none
                  | some (ops, e) =>
                    some (KVOp.rangeDelete (s?.getD []) (e?.getD []) false ::
                          KVOp.set (aik?.getD []) (aiv?.getD []) false ::
                          KVOp.set (mk?.getD []) (mv?.getD []) false ::
                          (ops ++ if e = none then [KVOp.sync] else []), e)

/-- C5: whenever the parsed `start` blob — or, `start` being well-formed, the
parsed `end` blob — has length zero, `ApplySnapshot` returns the matching
format error with an empty operation trace: no range delete, no set and no
sync was issued. -/
theorem C5_format_error_atomic (fuel : Nat) (f : RFile) :
    (∀ s? f1, readBytes fuel f = some (s?, f1) → (s?.getD []).length = 0 →
       applySnapshot fuel f = some ([], some SnapErr.missingStart)) ∧
    (∀ s? f1 e? f2, readBytes fuel f = some (s?, f1) → (s?.getD []).length ≠ 0 →
       readBytes fuel f1 = some (e?, f2) → (e?.getD []).length = 0 →
       applySnapshot fuel f = some ([], some SnapErr.missingEnd)) := by
  constructor
  · intro s? f1 h1 h2
    unfold applySnapshot
    rw [h1]
    simp only [if_pos h2]
  · intro s? f1 e? f2 h1 h2 h3 h4
    unfold applySnapshot
    rw [h1]
    simp only [if_neg h2]
    rw [h3]
    simp only [if_pos h4]

theorem C5_format_error_atomic_witness :
    applySnapshot 3 ⟨writeBytes [] ++ writeBytes [7], []⟩
      = some ([], some SnapErr.missingStart) :=
  (C5_format_error_atomic 3 ⟨writeBytes [] ++ writeBytes [7], []⟩).1
    (some []) ⟨writeBytes [7], []⟩ (by decide) (by decide)

/-- Every operation the applier's body loop issues is a `set` with
`sync = false`. -/
theorem applyPairs_shape : ∀ (fuel : Nat) (f : RFile) (ops : List KVOp)
    (e : Option SnapErr), applyPairs fuel f = some (ops, e) →
    ∃ ps : List KVPair, ops = ps.map (fun p => KVOp.set p.1 p.2 false)
  | 0, f, ops, e, h => by simp [applyPairs] at h
  | fuel + 1, f, ops, e, h => by
    unfold applyPairs at h
    cases h1 : readBytes (fuel + 1) f with
    | none => rw [h1] at h; cases h
    | some r =>
      obtain ⟨key?, f1⟩ := r
      rw [h1] at h
      dsimp only [] at h
      by_cases hk : (key?.getD []).length = 0
      · rw [if_pos hk] at h
        simp only [Option.some.injEq, Prod.mk.injEq] at h
        exact ⟨[], by rw [← h.1]; rfl⟩
      · rw [if_neg hk] at h
        cases h2 : readBytes (fuel + 1) f1 with
        | none => rw [h2] at h; cases h
        | some r2 =>
          obtain ⟨val?, f2⟩ := r2
          rw [h2] at h
          dsimp only [] at h
          by_cases hv : (val?.getD []).length = 0
          · rw [if_pos hv] at h
            simp only [Option.some.injEq, Prod.mk.injEq] at h
            exact ⟨[], by rw [← h.1]; rfl⟩
          · rw [if_neg hv] at h
            cases h3 : applyPairs fuel f2 with
            | none => rw [h3] at h; cases h
            | some r3 =>
              obtain ⟨ops2, e2⟩ := r3
              rw [h3] at h
              dsimp only [] at h
              simp only [Option.some.injEq, Prod.mk.injEq] at h
              obtain ⟨ps2, hps2⟩ := applyPairs_shape fuel f2 ops2 e2 h3
              refine ⟨(key?.getD [], val?.getD []) :: ps2, ?_⟩
              rw [← h.1, hps2]
              rfl

/-- C6: in every `ApplySnapshot` invocation that succeeds, the issued trace is
exactly the range delete, the applied-index set, the metadata set, one set per
body pair in file order — all with `sync = false` — and a single final
`sync`; when the invocation fails, no `sync` is ever issued. -/
theorem C6_write_ordering (fuel : Nat) (f : RFile) (ops : List KVOp)
    (err : Option SnapErr) (h : applySnapshot fuel f = some (ops, err)) :
    (err = none → ∃ lo hi aik aiv mk mv, ∃ ps : List KVPair,
        ops = KVOp.rangeDelete lo hi false :: KVOp.set aik aiv false ::
              KVOp.set mk mv false ::
              (ps.map (fun p => KVOp.set p.1 p.2 false) ++ [KVOp.sync])) ∧
    (err ≠ none → KVOp.sync ∉ ops) := by
  unfold applySnapshot at h
  cases h1 : readBytes fuel f with
  | none => rw [h1] at h; cases h
  | some r1 =>
    obtain ⟨s?, f1⟩ := r1
    rw [h1] at h
    dsimp only [] at h
    by_cases hs : (s?.getD []).length = 0
    · rw [if_pos hs] at h
      simp only [Option.some.injEq, Prod.mk.injEq] at h
      obtain ⟨rfl, rfl⟩ := h
      exact ⟨fun hc => absurd hc (by simp), fun _ => by simp⟩
    · rw [if_neg hs] at h
      cases h2 : readBytes fuel f1 with
      | none => rw [h2] at h; cases h
      | some r2 =>
        obtain ⟨e?, f2⟩ := r2
        rw [h2] at h
        dsimp only [] at h
        by_cases he : (e?.getD []).length = 0
        · rw [if_pos he] at h
          simp only [Option.some.injEq, Prod.mk.injEq] at h
          obtain ⟨rfl, rfl⟩ := h
          exact ⟨fun hc => absurd hc (by simp), fun _ => by simp⟩
        · rw [if_neg he] at h
          cases h3 : readBytes fuel f2 with
          | none => rw [h3] at h; cases h
          | some r3 =>
            obtain ⟨aik?, f3⟩ := r3
            rw [h3] at h
            dsimp only [] at h
            cases h4 : readBytes fuel f3 with
            | none => rw [h4] at h; cases h
            | some r4 =>
              obtain ⟨aiv?, f4⟩ := r4
              rw [h4] at h
              dsimp only [] at h
              cases h5 : readBytes fuel f4 with
              | none => rw [h5] at h; cases h
              | some r5 =>
                obtain ⟨mk?, f5⟩ := r5
                rw [h5] at h
                dsimp only [] at h
                cases h6 : readBytes fuel f5 with
                | none => rw [h6] at h; cases h
                | some r6 =>
                  obtain ⟨mv?, f6⟩ := r6
                  rw [h6] at h
                  dsimp only [] at h
                  cases h7 : applyPairs fuel f6 with
                  | none => rw [h7] at h; cases h
                  | some r7 =>
                    obtain ⟨ops2, e2⟩ := r7
                    rw [h7] at h
                    dsimp only [] at h
                    simp only [Option.some.injEq, Prod.mk.injEq] at h
                    obtain ⟨ps, hps⟩ := applyPairs_shape fuel f6 ops2 e2 h7
                    obtain ⟨hops, herr⟩ := h
                    constructor
                    · intro hnone
                      refine ⟨s?.getD [], e?.getD [], aik?.getD [], aiv?.getD [],
                        mk?.getD [], mv?.getD [], ps, ?_⟩
                      rw [← hops, hps]
                      rw [← herr] at hnone
                      rw [hnone]
                      simp
                    · intro hsome
                      rw [← herr] at hsome
                      rw [← hops, hps]
                      intro hmem
                      simp only [List.mem_cons] at hmem
                      rcases hmem with hc | hc | hc | hc
                      · cases hc
                      · cases hc
                      · cases hc
                      · rw [List.mem_append] at hc
                        rcases hc with hc | hc
                        · obtain ⟨q, _, hq⟩ := List.mem_map.mp hc
                          cases hq
                        · rw [if_neg hsome] at hc
                          simp at hc

/-- C3 (amended): a zero-length blob — a 4-byte prefix encoding 0 — is legal,
and the codec's result distinguishes it from the end-of-stream sentinel
(`some []` for the blob, the allocated-but-empty slice, versus `none`, the
`nil, nil` sentinel); the applier's body loop, however, terminates on any
zero-length key — on the sentinel and on a legal zero-length key blob alike —
because it tests only the key's length. -/
theorem C3_zero_blob_and_loop (fuel : Nat) (rest sched : List Nat) :
    readBytes (fuel + 1) ⟨writeBytes [] ++ rest, []⟩ = some (some [], ⟨rest, []⟩) ∧
    readBytes fuel ⟨[], sched⟩ = some (none, ⟨[], sched.tail⟩) ∧
    (some ([] : List Nat) ≠ (none : Option (List Nat))) ∧
    applyPairs (fuel + 1) ⟨writeBytes [] ++ rest, []⟩ = some ([], none) ∧
    applyPairs (fuel + 1) ⟨[], sched⟩ = some ([], none) := by
  have h1 := readBytes_frame (fuel + 1) (by omega) [] rest (by simp)
  refine ⟨h1, readBytes_nil fuel sched, by simp, ?_, ?_⟩
  · unfold applyPairs
    rw [h1]
    dsimp only []
    simp
  · unfold applyPairs
    rw [readBytes_nil]
    dsimp only []
    simp

/-- A snapshot file whose body starts with a zero-length key blob followed by
a fully framed `(key, value)` pair. -/
def c3file : List Nat :=
  writeBytes [1] ++ writeBytes [2] ++ writeBytes [3] ++ writeBytes [4] ++
  writeBytes [5] ++ writeBytes [6] ++ writeBytes [] ++ writeBytes [97] ++ writeBytes [98]

theorem C3_counterexample :
    applySnapshot 9 ⟨c3file, []⟩ =
      some ([KVOp.rangeDelete [1] [2] false, KVOp.set [3] [4] false,
             KVOp.set [5] [6] false, KVOp.sync], none) ∧
    KVOp.set [97] [98] false ∉
      [KVOp.rangeDelete [1] [2] false, KVOp.set [3] [4] false,
       KVOp.set [5] [6] false, KVOp.sync] := by
  decide

theorem C3_zero_blob_and_loop_witness :
    readBytes 3 ⟨writeBytes [] ++ [9], []⟩ = some (some [], ⟨[9], []⟩) ∧
    readBytes 2 ⟨[], [4]⟩ = some (none, ⟨[], []⟩) ∧
    (some ([] : List Nat) ≠ (none : Option (List Nat))) ∧
    applyPairs 3 ⟨writeBytes [] ++ [9], []⟩ = some ([], none) ∧
    applyPairs 3 ⟨[], [4]⟩ = some ([], none) :=
  C3_zero_blob_and_loop 2 [9] [4]

/-- C4 (amended): against a reader that returns full counts, read-blob reads
exactly the 4 prefix bytes, decodes `L` from them, and then reads exactly `L`
payload bytes; the sentinel arises exactly when end-of-stream is observed at
offset 0 of the prefix.  (Against a reader returning a permitted short count,
the single unchecked prefix `Read` decodes a zero-padded partial prefix — see
the counterexample.) -/
theorem C4_read_blob_exact (fuel : Nat) (hf : 1 ≤ fuel) (pre rest : List Nat)
    (hpre : pre.length = 4) (hav : beU32dec pre ≤ rest.length) :
    readBytes fuel ⟨pre ++ rest, []⟩ =
      some (some (rest.take (beU32dec pre)), ⟨rest.drop (beU32dec pre), []⟩) ∧
    (∀ sched, readBytes fuel ⟨[], sched⟩ = some (none, ⟨[], sched.tail⟩)) := by
  obtain ⟨fuel, rfl⟩ : ∃ k, fuel = k + 1 := ⟨fuel - 1, by omega⟩
  refine ⟨?_, fun sched => readBytes_nil _ sched⟩
  simp only [readBytes, fileRead, List.tail_nil]
  have hmin : min 4 (pre ++ rest).length = 4 := by
    simp only [List.length_append, hpre]
    omega
  rw [hmin, List.take_left' hpre, List.drop_left' hpre]
  have hne : ¬(pre.length = 0 ∧ ((pre ++ rest).length == 0) = true) := by
    intro h
    rw [hpre] at h
    exact absurd h.1 (by omega)
  rw [if_neg hne]
  rw [hpre]
  simp only [Nat.sub_self, List.replicate_zero, List.append_nil]
  rw [readLoop_greedy fuel rest (beU32dec pre) hav]

theorem C4_counterexample :
    readBytes 5 ⟨[0, 0, 0, 1, 65], [2]⟩ = some (some [], ⟨[0, 1, 65], []⟩) ∧
    Option.map Prod.fst (readBytes 5 ⟨[0, 0, 0, 1, 65], [2]⟩) ≠ some (some [65]) := by
  decide

theorem C4_read_blob_exact_witness :
    readBytes 1 ⟨[0, 0, 0, 2] ++ [5, 6, 7], []⟩ =
      some (some ([5, 6, 7].take (beU32dec [0, 0, 0, 2])),
            ⟨[5, 6, 7].drop (beU32dec [0, 0, 0, 2]), []⟩) ∧
    (∀ sched, readBytes 1 ⟨[], sched⟩ = some (none, ⟨[], sched.tail⟩)) :=
  C4_read_blob_exact 1 (by decide) [0, 0, 0, 2] [5, 6, 7] (by decide) (by decide)

/-- C10: write-blob encodes the blob length as `len(data) % 2 ^ 32` in the
4-byte big-endian prefix, so the framing round-trip holds for every blob
shorter than `2 ^ 32` bytes and is broken — a strictly shorter blob is read
back — for any blob of length `2 ^ 32` or more. -/
theorem C10_length_truncation (data rest : List Nat) (fuel : Nat) (hf : 1 ≤ fuel) :
    beU32dec (beBytes32 data.length) = data.length % 2 ^ 32 ∧
    (data.length < 2 ^ 32 →
      readBytes fuel ⟨writeBytes data ++ rest, []⟩ = some (some data, ⟨rest, []⟩)) ∧
    (2 ^ 32 ≤ data.length →
      readBytes fuel ⟨writeBytes data ++ rest, []⟩ =
        some (some (data.take (data.length % 2 ^ 32)),
              ⟨data.drop (data.length % 2 ^ 32) ++ rest, []⟩) ∧
      data.take (data.length % 2 ^ 32) ≠ data) := by
  refine ⟨beU32dec_beBytes32 _, fun h => readBytes_frame fuel hf data rest h, fun h => ?_⟩
  refine ⟨readBytes_writeBytes fuel hf data rest, ?_⟩
  intro he
  have hlen := congrArg List.length he
  rw [List.length_take] at hlen
  have hm : data.length % 2 ^ 32 < 2 ^ 32 := Nat.mod_lt _ (by omega)
  omega

theorem C10_length_truncation_witness :
    readBytes 1 ⟨writeBytes [7] ++ [9], []⟩ = some (some [7], ⟨[9], []⟩) ∧
    (readBytes 1 ⟨writeBytes (List.replicate (2 ^ 32) 0) ++ [], []⟩ =
       some (some ((List.replicate (2 ^ 32) 0).take
               ((List.replicate (2 ^ 32) 0).length % 2 ^ 32)),
             ⟨(List.replicate (2 ^ 32) 0).drop
               ((List.replicate (2 ^ 32) 0).length % 2 ^ 32) ++ [], []⟩) ∧
     (List.replicate (2 ^ 32) 0).take ((List.replicate (2 ^ 32) 0).length % 2 ^ 32)
       ≠ List.replicate (2 ^ 32) 0) :=
  ⟨(C10_length_truncation [7] [9] 1 (Nat.le_refl 1)).2.1 (by decide),
   (C10_length_truncation (List.replicate (2 ^ 32) 0) [] 1 (Nat.le_refl 1)).2.2
     (by rw [List.length_replicate])⟩

/-! ## Store lemmas -/

theorem storeGet_of_mem (st : Store)
    (hsort : st.Pairwise (fun a b => bytesLt a.1 b.1 = true)) :
    ∀ k v, (k, v) ∈ st → storeGet st k = some v := by
  induction st with
  | nil => intro k v h; simp at h
  | cons e st ih =>
    intro k v h
    rcases List.mem_cons.mp h with h | h
    · rw [← h]
      unfold storeGet
      rw [List.find?_cons_of_pos _ (by simp)]
      rfl
    · have hlt : bytesLt e.1 k = true := (List.pairwise_cons.mp hsort).1 (k, v) h
      unfold storeGet
      rw [List.find?_cons_of_neg _ (by simp; exact fun hc => bytesNe_of_lt hlt hc)]
      exact ih (List.pairwise_cons.mp hsort).2 k v h

theorem mem_of_storeGet (st : Store) (k v : List Nat) (h : storeGet st k = some v) :
    (k, v) ∈ st := by
  unfold storeGet at h
  cases hf : st.find? (fun e => e.1 == k) with
  | none => rw [hf] at h; cases h
  | some e =>
    rw [hf] at h
    have hp := List.find?_some hf
    have hm := List.mem_of_find?_eq_some hf
    obtain ⟨e1, e2⟩ := e
    simp only [Option.map_some', Option.some.injEq] at h
    simp only [beq_iff_eq] at hp
    rw [← hp, ← h] at *
    exact hm

theorem storeGet_map_ne (st : Store) (k v k2 : List Nat) (hne : k2 ≠ k) :
    storeGet (st.map (fun e => if e.1 == k then (k, v) else e)) k2 = storeGet st k2 := by
  induction st with
  | nil => rfl
  | cons e st ih =>
    rw [List.map_cons]
    unfold storeGet
    by_cases hek : e.1 = k
    · rw [if_pos (by simp [hek])]
      rw [List.find?_cons_of_neg _ (by simp; exact fun hc => hne hc.symm)]
      rw [List.find?_cons_of_neg _ (by simp [hek]; exact fun hc => hne hc.symm)]
      exact ih
    · rw [if_neg (by simp [hek])]
      by_cases he2 : e.1 = k2
      · rw [List.find?_cons_of_pos _ (by simp [he2]),
          List.find?_cons_of_pos _ (by simp [he2])]
      · rw [List.find?_cons_of_neg _ (by simp [he2]),
          List.find?_cons_of_neg _ (by simp [he2])]
        exact ih

theorem storeGet_map_eq (st : Store) (k v : List Nat)
    (hany : st.any (fun e => e.1 == k) = true) :
    storeGet (st.map (fun e => if e.1 == k then (k, v) else e)) k = some v := by
  induction st with
  | nil => simp at hany
  | cons e st ih =>
    rw [List.map_cons]
    unfold storeGet
    by_cases hek : e.1 = k
    · rw [if_pos (by simp [hek])]
      rw [List.find?_cons_of_pos _ (by simp)]
      rfl
    · rw [if_neg (by simp [hek])]
      rw [List.find?_cons_of_neg _ (by simp [hek])]
      have hany2 : st.any (fun e => e.1 == k) = true := by
        rw [List.any_cons] at hany
        simpa [hek] using hany
      exact ih hany2

theorem storeGet_storeSet (st : Store) (k v k2 : List Nat) :
    storeGet (storeSet st k v) k2 = if k2 = k then some v else storeGet st k2 := by
  unfold storeSet
  by_cases hany : st.any (fun e => e.1 == k) = true
  · rw [if_pos hany]
    by_cases hk : k2 = k
    · rw [if_pos hk, hk]
      exact storeGet_map_eq st k v hany
    · rw [if_neg hk]
      exact storeGet_map_ne st k v k2 hk
  · rw [if_neg hany]
    have hnone : st.find? (fun e => e.1 == k) = none := by
      rw [List.find?_eq_none]
      intro x hx hpx
      exact hany (List.any_eq_true.mpr ⟨x, hx, hpx⟩)
    by_cases hk : k2 = k
    · rw [if_pos hk]
      unfold storeGet
      rw [hk, List.find?_append, hnone]
      simp
    · rw [if_neg hk]
      unfold storeGet
      rw [List.find?_append]
      have h2 : ([(k, v)] : Store).find? (fun e => e.1 == k2) = none := by
        simp
        exact fun hc => hk hc.symm
      rw [h2]
      cases st.find? (fun e => e.1 == k2) <;> rfl

theorem storeGet_foldSet : ∀ (L : List KVPair) (st : Store) (k : List Nat),
    storeGet (L.foldl (fun s e => storeSet s e.1 e.2) st) k
      = match L.reverse.find? (fun e => e.1 == k) with
        | some e => some e.2
        | none => storeGet st k := by
  intro L
  induction L with
  | nil => intro st k; rfl
  | cons e L ih =>
    intro st k
    rw [List.foldl_cons, ih]
    rw [List.reverse_cons, List.find?_append]
    cases hf : L.reverse.find? (fun x => x.1 == k) with
    | some x => rfl
    | none =>
      dsimp only [Option.none_or]
      by_cases hk : e.1 = k
      · rw [List.find?_cons_of_pos _ (by simp [hk])]
        rw [storeGet_storeSet, if_pos hk.symm]
      · rw [List.find?_cons_of_neg _ (by simp [hk])]
        rw [storeGet_storeSet, if_neg (fun hc => hk hc.symm)]
        rfl

/-! ## Extractor and applier lemmas -/

theorem getShardMetadata_ok_mem (kc : KeysCodec) (X : Store) (shardID : Nat)
    (mk mv : List Nat) (h : getShardMetadata kc X shardID = .ok (mk, mv)) :
    (mk, mv) ∈ X := by
  unfold getShardMetadata at h
  dsimp only [] at h
  cases hl : ((X.filter (fun e => bytesLe (kc.metadataSeekKey shardID) e.1)).takeWhile
      (fun e => kc.shardIDFromMetadataKey e.1 == some shardID)).getLast? with
  | none => rw [hl] at h; cases h
  | some p =>
    rw [hl] at h
    obtain ⟨k0, v0⟩ := p
    dsimp only [] at h
    by_cases hz : v0.length = 0 ∨ k0.length = 0
    · rw [if_pos hz] at h; cases h
    · rw [if_neg hz] at h
      have hmem := List.mem_of_getLast?_eq_some hl
      have hmem2 : (k0, v0) ∈ X :=
        (List.Sublist.trans (List.takeWhile_sublist _) (List.filter_sublist _)).subset hmem
      simp only [Except.ok.injEq, Prod.mk.injEq] at h
      rw [← h.1, ← h.2]
      exact hmem2

theorem snapIter_mem_store (X : Store) (startK stopK : List Nat) (e : KVPair)
    (h : e ∈ snapIter X startK stopK) : e ∈ X := by
  unfold snapIter at h
  dsimp only [] at h
  by_cases h2 : 0 < stopK.length
  · rw [if_pos h2] at h
    have h3 := (List.filter_sublist _).subset h
    by_cases h1 : 0 < startK.length
    · rw [if_pos h1] at h3
      exact (List.filter_sublist _).subset h3
    · rw [if_neg h1] at h3
      exact h3
  · rw [if_neg h2] at h
    by_cases h1 : 0 < startK.length
    · rw [if_pos h1] at h
      exact (List.filter_sublist _).subset h
    · rw [if_neg h1] at h
      exact h

/-- Whether a key lies in the shard's range, an empty bound meaning
unbounded on that side. -/
def inShardRange (startK stopK k : List Nat) : Bool :=
  (startK.length == 0 || bytesLe startK k) && (stopK.length == 0 || bytesLt k stopK)

theorem snapIter_mem_range (X : Store) (startK stopK : List Nat) (e : KVPair)
    (h : e ∈ snapIter X startK stopK) : inShardRange startK stopK e.1 = true := by
  unfold snapIter at h
  dsimp only [] at h
  unfold inShardRange
  by_cases h2 : 0 < stopK.length
  · rw [if_pos h2] at h
    have hb := List.of_mem_filter h
    have h3 := (List.filter_sublist _).subset h
    by_cases h1 : 0 < startK.length
    · rw [if_pos h1] at h3
      have ha := List.of_mem_filter h3
      simp [ha, hb]
    · rw [if_neg h1] at h3
      have h1z : startK.length = 0 := by omega
      simp [hb, h1z]
  · rw [if_neg h2] at h
    have h2z : stopK.length = 0 := by omega
    by_cases h1 : 0 < startK.length
    · rw [if_pos h1] at h
      have ha := List.of_mem_filter h
      simp [ha, h2z]
    · rw [if_neg h1] at h
      have h1z : startK.length = 0 := by omega
      simp [h1z, h2z]

theorem length_pos_of_ne_nil {l : List Nat} (h : l ≠ []) : 0 < l.length := by
  cases l with
  | nil => exact absurd rfl h
  | cons a t => exact Nat.succ_pos _

theorem snapIter_mem_bounds (X : Store) (startK stopK : List Nat) (e : KVPair)
    (hs : startK ≠ []) (he : stopK ≠ [])
    (h : e ∈ snapIter X startK stopK) :
    bytesLe startK e.1 = true ∧ bytesLt e.1 stopK = true := by
  unfold snapIter at h
  dsimp only [] at h
  rw [if_pos (length_pos_of_ne_nil he), if_pos (length_pos_of_ne_nil hs)] at h
  have hb := List.of_mem_filter h
  have ha := List.of_mem_filter ((List.filter_sublist _).subset h)
  exact ⟨ha, hb⟩

theorem mem_snapIter (X : Store) (startK stopK : List Nat) (e : KVPair)
    (hs : startK ≠ []) (he : stopK ≠ []) (hmem : e ∈ X)
    (h1 : bytesLe startK e.1 = true) (h2 : bytesLt e.1 stopK = true) :
    e ∈ snapIter X startK stopK := by
  unfold snapIter
  dsimp only []
  rw [if_pos (length_pos_of_ne_nil he), if_pos (length_pos_of_ne_nil hs)]
  exact List.mem_filter.mpr ⟨List.mem_filter.mpr ⟨hmem, h1⟩, h2⟩

/-- The file `CreateSnapshot` produces once its two lookups have succeeded. -/
theorem createSnapshot_eq (kc : KeysCodec) (X : Store) (shardID : Nat)
    (aiv mk mv startK stopK : List Nat)
    (haik : storeGet X (kc.appliedIndexKey shardID) = some aiv)
    (hmeta : getShardMetadata kc X shardID = .ok (mk, mv))
    (hrange : kc.shardRangeOfMeta mv = (startK, stopK)) :
    createSnapshot kc X shardID =
      .ok (writeBytes startK ++ writeBytes stopK ++
           writeBytes (kc.appliedIndexKey shardID) ++ writeBytes aiv ++
           writeBytes mk ++ writeBytes mv ++
           ((snapIter X startK stopK).map
             (fun e => writeBytes e.1 ++ writeBytes e.2)).flatten,
           byte2UInt64 aiv) := by
  unfold createSnapshot getAppliedIndex
  dsimp only []
  rw [haik]
  dsimp only []
  rw [hmeta]
  dsimp only []
  rw [hrange]

/-- Running the body loop over a well-formed framed pair stream issues exactly
one `set` per pair, in file order, and terminates cleanly on the sentinel. -/
theorem applyPairs_stream : ∀ (pairs : List KVPair) (fuel : Nat),
    (∀ p ∈ pairs, p.1 ≠ [] ∧ p.2 ≠ [] ∧ p.1.length < 2 ^ 32 ∧ p.2.length < 2 ^ 32) →
    pairs.length + 1 ≤ fuel →
    applyPairs fuel ⟨(pairs.map (fun e => writeBytes e.1 ++ writeBytes e.2)).flatten, []⟩
      = some (pairs.map (fun p => KVOp.set p.1 p.2 false), none)
  | pairs, fuel, hp, hfuel => by
    obtain ⟨m, rfl⟩ : ∃ m, fuel = m + 1 := ⟨fuel - 1, by omega⟩
    cases pairs with
    | nil =>
      unfold applyPairs
      rw [List.map_nil, List.flatten_nil, readBytes_nil]
      dsimp only []
      simp
    | cons p ps =>
      obtain ⟨hk, hv, hkl, hvl⟩ := hp p (List.mem_cons_self _ _)
      unfold applyPairs
      rw [List.map_cons, List.flatten_cons, List.append_assoc]
      rw [readBytes_frame (m + 1) (by omega) p.1 _ hkl]
      dsimp only []
      rw [if_neg (by simpa using hk)]
      rw [readBytes_frame (m + 1) (by omega) p.2 _ hvl]
      dsimp only []
      rw [if_neg (by simpa using hv)]
      have hrec := applyPairs_stream ps m
        (fun q hq => hp q (List.mem_cons_of_mem _ hq))
        (by simp only [List.length_cons] at hfuel; omega)
      rw [hrec]
      rfl

theorem applyOps_sets_sync : ∀ (L : List KVPair) (st : Store),
    applyOps st (L.map (fun p => KVOp.set p.1 p.2 false) ++ [KVOp.sync])
      = L.foldl (fun s e => storeSet s e.1 e.2) st
  | [], st => rfl
  | p :: L, st => by
    rw [List.map_cons, List.cons_append]
    show applyOps (storeSet st p.1 p.2) _ = _
    rw [applyOps_sets_sync L (storeSet st p.1 p.2)]
    rfl

/-- C1 (amended): for a shard whose metadata declares a nonempty `start` and
`end`, whose in-range entries all carry nonempty values, and whose recorded
blobs are shorter than `2 ^ 32` bytes, applying the file `CreateSnapshot`
produced over `X` to an empty store succeeds, and the resulting store agrees
byte-for-byte with `X` on every key of `[start, end)` and on the applied-index
and metadata keys. -/
theorem C1_snapshot_roundtrip (kc : KeysCodec) (X : Store) (shardID fuel : Nat)
    (aiv mk mv startK stopK : List Nat)
    (hsort : X.Pairwise (fun a b => bytesLt a.1 b.1 = true))
    (haik : storeGet X (kc.appliedIndexKey shardID) = some aiv)
    (hmeta : getShardMetadata kc X shardID = .ok (mk, mv))
    (hrange : kc.shardRangeOfMeta mv = (startK, stopK))
    (hs : startK ≠ []) (he : stopK ≠ [])
    (hlen : ∀ e ∈ X, e.1.length < 2 ^ 32 ∧ e.2.length < 2 ^ 32)
    (hlenA : (kc.appliedIndexKey shardID).length < 2 ^ 32)
    (hlenS : startK.length < 2 ^ 32) (hlenE : stopK.length < 2 ^ 32)
    (hval : ∀ e ∈ X, bytesLe startK e.1 = true → bytesLt e.1 stopK = true → e.2 ≠ [])
    (hfuel : (snapIter X startK stopK).length + 1 ≤ fuel) :
    ∃ file ops,
      createSnapshot kc X shardID = .ok (file, byte2UInt64 aiv) ∧
      applySnapshot fuel ⟨file, []⟩ = some (ops, none) ∧
      ∀ k, ((bytesLe startK k = true ∧ bytesLt k stopK = true) ∨
            k = kc.appliedIndexKey shardID ∨ k = mk) →
        storeGet (applyOps [] ops) k = storeGet X k := by
  have hcs := createSnapshot_eq kc X shardID aiv mk mv startK stopK haik hmeta hrange
  have hfuel1 : 1 ≤ fuel := by omega
  have hmemA : ((kc.appliedIndexKey shardID, aiv) : KVPair) ∈ X :=
    mem_of_storeGet X _ aiv haik
  have hmemM : ((mk, mv) : KVPair) ∈ X := getShardMetadata_ok_mem kc X shardID mk mv hmeta
  have hlenAiv : aiv.length < 2 ^ 32 := (hlen _ hmemA).2
  have hlenMk : mk.length < 2 ^ 32 := (hlen _ hmemM).1
  have hlenMv : mv.length < 2 ^ 32 := (hlen _ hmemM).2
  obtain ⟨s0, sl, hsk⟩ := List.exists_cons_of_ne_nil hs
  have hpairsOK : ∀ p ∈ snapIter X startK stopK,
      p.1 ≠ [] ∧ p.2 ≠ [] ∧ p.1.length < 2 ^ 32 ∧ p.2.length < 2 ^ 32 := by
    intro p hp
    have hmem := snapIter_mem_store X startK stopK p hp
    have hbd := snapIter_mem_bounds X startK stopK p hs he hp
    refine ⟨?_, hval p hmem hbd.1 hbd.2, (hlen p hmem).1, (hlen p hmem).2⟩
    rw [hsk] at hbd
    exact bytesLe_cons_not_nil hbd.1
  have happairs := applyPairs_stream (snapIter X startK stopK) fuel hpairsOK hfuel
  refine ⟨_, KVOp.rangeDelete startK stopK false ::
      KVOp.set (kc.appliedIndexKey shardID) aiv false :: KVOp.set mk mv false ::
      ((snapIter X startK stopK).map (fun p => KVOp.set p.1 p.2 false) ++ [KVOp.sync]),
      hcs, ?_, ?_⟩
  · unfold applySnapshot
    simp only [List.append_assoc]
    rw [readBytes_frame fuel hfuel1 startK _ hlenS]
    dsimp only []
    rw [if_neg (by simpa using hs)]
    rw [readBytes_frame fuel hfuel1 stopK _ hlenE]
    dsimp only []
    rw [if_neg (by simpa using he)]
    rw [readBytes_frame fuel hfuel1 (kc.appliedIndexKey shardID) _ hlenA]
    dsimp only []
    rw [readBytes_frame fuel hfuel1 aiv _ hlenAiv]
    dsimp only []
    rw [readBytes_frame fuel hfuel1 mk _ hlenMk]
    dsimp only []
    rw [readBytes_frame fuel hfuel1 mv _ hlenMv]
    dsimp only []
    rw [happairs]
    dsimp only []
    simp
  · intro k hk
    have hY : applyOps ([] : Store)
        (KVOp.rangeDelete startK stopK false ::
         KVOp.set (kc.appliedIndexKey shardID) aiv false :: KVOp.set mk mv false ::
         ((snapIter X startK stopK).map (fun p => KVOp.set p.1 p.2 false) ++ [KVOp.sync]))
        = (((kc.appliedIndexKey shardID, aiv) :: (mk, mv) :: snapIter X startK stopK).foldl
            (fun s e => storeSet s e.1 e.2) []) := by
      unfold applyOps
      rw [List.foldl_cons]
      rw [show applyOp ([] : Store) (KVOp.rangeDelete startK stopK false) = ([] : Store)
        from rfl]
      exact applyOps_sets_sync
        ((kc.appliedIndexKey shardID, aiv) :: (mk, mv) :: snapIter X startK stopK) []
    have hagree : ∀ e ∈ ((kc.appliedIndexKey shardID, aiv) :: (mk, mv) ::
        snapIter X startK stopK), storeGet X e.1 = some e.2 := by
      intro e hee
      rcases List.mem_cons.mp hee with hee | hee
      · rw [hee]; exact haik
      · rcases List.mem_cons.mp hee with hee | hee
        · rw [hee]
          exact storeGet_of_mem X hsort mk mv hmemM
        · exact storeGet_of_mem X hsort e.1 e.2 (snapIter_mem_store X startK stopK e hee)
    rw [hY, storeGet_foldSet]
    cases hfind : (((kc.appliedIndexKey shardID, aiv) :: (mk, mv) ::
        snapIter X startK stopK).reverse).find? (fun e => e.1 == k) with
    | some e =>
      have hpe : e.1 = k := by
        have := List.find?_some hfind
        simpa using this
      have hme : e ∈ ((kc.appliedIndexKey shardID, aiv) :: (mk, mv) ::
          snapIter X startK stopK) :=
        List.mem_reverse.mp (List.mem_of_find?_eq_some hfind)
      have hax := hagree e hme
      dsimp only []
      rw [← hpe]
      exact hax.symm
    | none =>
      dsimp only []
      rw [List.find?_eq_none] at hfind
      rcases hk with ⟨hk1, hk2⟩ | hk | hk
      · cases hx : storeGet X k with
        | none => rfl
        | some v =>
          exfalso
          have hmemX := mem_of_storeGet X k v hx
          have hmemP := mem_snapIter X startK stopK (k, v) hs he hmemX hk1 hk2
          refine absurd (hfind ((k, v) : KVPair) ?_) (by simp)
          exact List.mem_reverse.mpr
            (List.mem_cons_of_mem _ (List.mem_cons_of_mem _ hmemP))
      · exfalso
        exact (hfind ((kc.appliedIndexKey shardID, aiv) : KVPair)
          (List.mem_reverse.mpr (List.mem_cons_self _ _))) (by simp [hk])
      · exfalso
        exact (hfind ((mk, mv) : KVPair)
          (List.mem_reverse.mpr (List.mem_cons_of_mem _ (List.mem_cons_self _ _))))
          (by simp [hk])

/-- Any `set` the body loop issues while consuming a framed pair stream
carries the key of one of the framed pairs, whatever error or early stop
occurs. -/
theorem applyPairs_stream_keys : ∀ (pairs : List KVPair) (fuel : Nat),
    (∀ p ∈ pairs, p.1.length < 2 ^ 32 ∧ p.2.length < 2 ^ 32) →
    ∀ ops e, applyPairs fuel
        ⟨(pairs.map (fun q => writeBytes q.1 ++ writeBytes q.2)).flatten, []⟩
      = some (ops, e) →
    ∀ k v b, KVOp.set k v b ∈ ops → ∃ p ∈ pairs, p.1 = k := by
  intro pairs
  induction pairs with
  | nil =>
    intro fuel hlen ops e h k v b hmem
    obtain ⟨m, rfl⟩ : ∃ m, fuel = m + 1 := by
      cases fuel with
      | zero => cases h
      | succ m => exact ⟨m, rfl⟩
    unfold applyPairs at h
    rw [List.map_nil, List.flatten_nil, readBytes_nil] at h
    dsimp only [] at h
    rw [if_pos (show ((none : Option (List Nat)).getD []).length = 0 from rfl)] at h
    simp only [Option.some.injEq, Prod.mk.injEq] at h
    rw [← h.1] at hmem
    simp at hmem
  | cons p ps ih =>
    intro fuel hlen ops e h k v b hmem
    obtain ⟨m, rfl⟩ : ∃ m, fuel = m + 1 := by
      cases fuel with
      | zero => cases h
      | succ m => exact ⟨m, rfl⟩
    obtain ⟨hkl, hvl⟩ := hlen p (List.mem_cons_self _ _)
    unfold applyPairs at h
    rw [List.map_cons, List.flatten_cons, List.append_assoc] at h
    rw [readBytes_frame (m + 1) (by omega) p.1 _ hkl] at h
    dsimp only [] at h
    by_cases hk0 : p.1.length = 0
    · rw [if_pos (by simpa using hk0)] at h
      simp only [Option.some.injEq, Prod.mk.injEq] at h
      rw [← h.1] at hmem
      simp at hmem
    · rw [if_neg (by simpa using hk0)] at h
      rw [readBytes_frame (m + 1) (by omega) p.2 _ hvl] at h
      dsimp only [] at h
      by_cases hv0 : p.2.length = 0
      · rw [if_pos (by simpa using hv0)] at h
        simp only [Option.some.injEq, Prod.mk.injEq] at h
        rw [← h.1] at hmem
        simp at hmem
      · rw [if_neg (by simpa using hv0)] at h
        cases h3 : applyPairs m
            ⟨(ps.map (fun q => writeBytes q.1 ++ writeBytes q.2)).flatten, []⟩ with
        | none => rw [h3] at h; cases h
        | some r3 =>
          obtain ⟨ops2, e2⟩ := r3
          rw [h3] at h
          dsimp only [] at h
          simp only [Option.some.injEq, Prod.mk.injEq] at h
          rw [← h.1] at hmem
          rcases List.mem_cons.mp hmem with hc | hc
          · exact ⟨p, List.mem_cons_self _ _, by injection hc with h1 h2 h3; exact h1.symm⟩
          · obtain ⟨q, hq, hqk⟩ := ih m
              (fun q hq => hlen q (List.mem_cons_of_mem _ hq)) ops2 e2 h3 k v b hc
            exact ⟨q, List.mem_cons_of_mem _ hq, hqk⟩

/-- C9: every user `(key, value)` pair recorded in a snapshot file produced by
`CreateSnapshot` has its key inside the `[start, end)` decoded from the
shard's metadata (an empty bound meaning unbounded on that side), and every
`set` issued by `ApplySnapshot` on such a file carries a reserved key (the
applied-index or metadata key) or a user key within the `[start, end)` read
from that same file's header. -/
theorem C9_range_containment (kc : KeysCodec) (X : Store) (shardID fuel : Nat)
    (aiv mk mv startK stopK : List Nat)
    (haik : storeGet X (kc.appliedIndexKey shardID) = some aiv)
    (hmeta : getShardMetadata kc X shardID = .ok (mk, mv))
    (hrange : kc.shardRangeOfMeta mv = (startK, stopK))
    (hlen : ∀ e ∈ X, e.1.length < 2 ^ 32 ∧ e.2.length < 2 ^ 32)
    (hlenA : (kc.appliedIndexKey shardID).length < 2 ^ 32)
    (hlenS : startK.length < 2 ^ 32) (hlenE : stopK.length < 2 ^ 32)
    (hfuel1 : 1 ≤ fuel) :
    (∀ e ∈ snapIter X startK stopK, inShardRange startK stopK e.1 = true) ∧
    (∀ file ai ops err, createSnapshot kc X shardID = .ok (file, ai) →
      applySnapshot fuel ⟨file, []⟩ = some (ops, err) →
      ∀ k v b, KVOp.set k v b ∈ ops →
        k = kc.appliedIndexKey shardID ∨ k = mk ∨
        (bytesLe startK k = true ∧ bytesLt k stopK = true)) := by
  have hmemA : ((kc.appliedIndexKey shardID, aiv) : KVPair) ∈ X :=
    mem_of_storeGet X _ aiv haik
  have hmemM : ((mk, mv) : KVPair) ∈ X := getShardMetadata_ok_mem kc X shardID mk mv hmeta
  have hlenAiv : aiv.length < 2 ^ 32 := (hlen _ hmemA).2
  have hlenMk : mk.length < 2 ^ 32 := (hlen _ hmemM).1
  have hlenMv : mv.length < 2 ^ 32 := (hlen _ hmemM).2
  refine ⟨fun e he => snapIter_mem_range X startK stopK e he, ?_⟩
  intro file ai ops err hfile happly k v b hmem
  rw [createSnapshot_eq kc X shardID aiv mk mv startK stopK haik hmeta hrange] at hfile
  simp only [Except.ok.injEq, Prod.mk.injEq] at hfile
  rw [← hfile.1] at happly
  unfold applySnapshot at happly
  simp only [List.append_assoc] at happly
  rw [readBytes_frame fuel hfuel1 startK _ hlenS] at happly
  dsimp only [] at happly
  by_cases hsE : startK.length = 0
  · rw [if_pos (by simpa using hsE)] at happly
    simp only [Option.some.injEq, Prod.mk.injEq] at happly
    rw [← happly.1] at hmem
    simp at hmem
  · rw [if_neg (by simpa using hsE)] at happly
    rw [readBytes_frame fuel hfuel1 stopK _ hlenE] at happly
    dsimp only [] at happly
    by_cases heE : stopK.length = 0
    · rw [if_pos (by simpa using heE)] at happly
      simp only [Option.some.injEq, Prod.mk.injEq] at happly
      rw [← happly.1] at hmem
      simp at hmem
    · rw [if_neg (by simpa using heE)] at happly
      rw [readBytes_frame fuel hfuel1 (kc.appliedIndexKey shardID) _ hlenA] at happly
      dsimp only [] at happly
      rw [readBytes_frame fuel hfuel1 aiv _ hlenAiv] at happly
      dsimp only [] at happly
      rw [readBytes_frame fuel hfuel1 mk _ hlenMk] at happly
      dsimp only [] at happly
      rw [readBytes_frame fuel hfuel1 mv _ hlenMv] at happly
      dsimp only [] at happly
      cases h7 : applyPairs fuel
          ⟨((snapIter X startK stopK).map
            (fun e => writeBytes e.1 ++ writeBytes e.2)).flatten, []⟩ with
      | none => rw [h7] at happly; cases happly
      | some r7 =>
        obtain ⟨ops2, e2⟩ := r7
        rw [h7] at happly
        dsimp only [] at happly
        simp only [Option.some.injEq, Prod.mk.injEq] at happly
        rw [← happly.1] at hmem
        have hsnil : startK ≠ [] := fun hc => hsE (by rw [hc]; rfl)
        have henil : stopK ≠ [] := fun hc => heE (by rw [hc]; rfl)
        rcases List.mem_cons.mp hmem with hc | hc
        · exact absurd hc (by simp)
        · rcases List.mem_cons.mp hc with hc | hc
          · left
            injection hc with h1 h2 h3
          · rcases List.mem_cons.mp hc with hc | hc
            · right; left
              injection hc with h1 h2 h3
            · rw [List.mem_append] at hc
              rcases hc with hc | hc
              · obtain ⟨p, hp, hpk⟩ := applyPairs_stream_keys (snapIter X startK stopK)
                  fuel (fun q hq => hlen q (snapIter_mem_store X startK stopK q hq))
                  ops2 e2 h7 k v b hc
                right; right
                rw [← hpk]
                exact snapIter_mem_bounds X startK stopK p hsnil henil hp
              · exfalso
                by_cases hez : e2 = none
                · rw [if_pos hez] at hc
                  simp at hc
                · rw [if_neg hez] at hc
                  simp at hc

/-! ## Claim-level concrete instances -/

/-- Projection of the file bytes out of a `createSnapshot` result. -/
def snapFileOf : Except CreateErr (List Nat × Nat) → Option (List Nat)
  | .ok (f, _) => some f
  | .error _ => none

/-- Projection of the error out of a `createSnapshot` result. -/
def createErrOf : Except CreateErr (List Nat × Nat) → Option CreateErr
  | .error e => some e
  | .ok _ => none

/-- A concrete key codec: applied-index key `[0]`, metadata seek key `[1]`,
only `[1]` decodes (to shard 1), metadata always declares range `[[2], [9])`. -/
def kcC1 : KeysCodec :=
  ⟨fun _ => [0], fun _ => [1],
   fun l => if l = [1] then some 1 else none, fun _ => ([2], [9])⟩

/-- A store holding an in-range entry `[3]` with an empty value. -/
def XC1 : Store := [([0], [0, 0, 0, 0, 0, 0, 0, 42]), ([1], [7]), ([3], [])]

/-- A store holding an in-range entry `[3]` with a nonempty value. -/
def XW : Store := [([0], [0, 0, 0, 0, 0, 0, 0, 42]), ([1], [7]), ([3], [8])]

theorem C1_counterexample :
    (snapFileOf (createSnapshot kcC1 XC1 1)).isSome = true ∧
    bytesLe [2] [3] = true ∧ bytesLt [3] [9] = true ∧
    applySnapshot 10 ⟨(snapFileOf (createSnapshot kcC1 XC1 1)).getD [], []⟩ =
      some ([KVOp.rangeDelete [2] [9] false,
             KVOp.set [0] [0, 0, 0, 0, 0, 0, 0, 42] false,
             KVOp.set [1] [7] false], some SnapErr.missingValue) ∧
    storeGet (applyOps []
      [KVOp.rangeDelete [2] [9] false,
       KVOp.set [0] [0, 0, 0, 0, 0, 0, 0, 42] false,
       KVOp.set [1] [7] false]) [3] = none ∧
    storeGet XC1 [3] = some [] := by
  decide

theorem C1_snapshot_roundtrip_witness :
    ∃ file ops,
      createSnapshot kcC1 XW 1 = .ok (file, byte2UInt64 [0, 0, 0, 0, 0, 0, 0, 42]) ∧
      applySnapshot 5 ⟨file, []⟩ = some (ops, none) ∧
      ∀ k, ((bytesLe [2] k = true ∧ bytesLt k [9] = true) ∨
            k = kcC1.appliedIndexKey 1 ∨ k = [1]) →
        storeGet (applyOps [] ops) k = storeGet XW k :=
  C1_snapshot_roundtrip kcC1 XW 1 5 [0, 0, 0, 0, 0, 0, 0, 42] [1] [7] [2] [9]
    (by decide) (by rfl) (by rfl) (by rfl) (by decide) (by decide)
    (by decide) (by decide) (by decide) (by decide) (by decide) (by decide)

theorem C9_range_containment_witness :
    (∀ e ∈ snapIter XW [2] [9], inShardRange [2] [9] e.1 = true) ∧
    (∀ file ai ops err, createSnapshot kcC1 XW 1 = .ok (file, ai) →
      applySnapshot 5 ⟨file, []⟩ = some (ops, err) →
      ∀ k v b, KVOp.set k v b ∈ ops →
        k = kcC1.appliedIndexKey 1 ∨ k = [1] ∨
        (bytesLe [2] k = true ∧ bytesLt k [9] = true)) :=
  C9_range_containment kcC1 XW 1 5 [0, 0, 0, 0, 0, 0, 0, 42] [1] [7] [2] [9]
    (by rfl) (by rfl) (by rfl) (by decide) (by decide) (by decide) (by decide)
    (by decide)

/-- C8 (amended): the extractor iterates forward from the shard's metadata
seek key and copies the last consecutive entry whose key still decodes to this
shard id, provided that entry's key and value are nonempty; if no such entry
exists — or the selected entry's key or value is empty — it fails with the
no-metadata error, which `CreateSnapshot` surfaces and which is a value
distinct from the store's not-found error. -/
theorem C8_metadata_selection (kc : KeysCodec) (X : Store) (shardID : Nat) :
    (metadataRun kc X shardID = [] →
      getShardMetadata kc X shardID = .error CreateErr.noMetadata) ∧
    (∀ k v, (metadataRun kc X shardID).getLast? = some (k, v) → k ≠ [] → v ≠ [] →
      getShardMetadata kc X shardID = .ok (k, v)) ∧
    (∀ aiv, storeGet X (kc.appliedIndexKey shardID) = some aiv →
      getShardMetadata kc X shardID = .error CreateErr.noMetadata →
      createSnapshot kc X shardID = .error CreateErr.noMetadata) ∧
    CreateErr.noMetadata ≠ CreateErr.appliedIndexNotFound := by
  refine ⟨?_, ?_, ?_, by simp⟩
  · intro h
    unfold getShardMetadata
    dsimp only []
    unfold metadataRun at h
    rw [h]
    rfl
  · intro k v hlast hk hv
    unfold getShardMetadata
    dsimp only []
    unfold metadataRun at hlast
    rw [hlast]
    dsimp only []
    rw [if_neg (by simp [List.length_eq_zero, hk, hv])]
  · intro aiv ha hm
    unfold createSnapshot getAppliedIndex
    dsimp only []
    rw [ha]
    dsimp only []
    rw [hm]

theorem C8_counterexample :
    metadataRun kcC1 [([0], [9]), ([1], [])] 1 = [([1], [])] ∧
    createErrOf (createSnapshot kcC1 [([0], [9]), ([1], [])] 1)
      = some CreateErr.noMetadata := by
  decide

theorem C8_metadata_selection_witness :
    getShardMetadata kcC1 XW 1 = .ok ([1], [7]) ∧
    getShardMetadata kcC1 ([] : Store) 1 = .error CreateErr.noMetadata :=
  ⟨(C8_metadata_selection kcC1 XW 1).2.1 [1] [7] (by decide) (by decide) (by decide),
   (C8_metadata_selection kcC1 [] 1).1 (by decide)⟩

/-- A well-formed snapshot file with one body pair. -/
def c6file : List Nat :=
  writeBytes [1] ++ writeBytes [2] ++ writeBytes [3] ++ writeBytes [4] ++
  writeBytes [5] ++ writeBytes [6] ++ writeBytes [7] ++ writeBytes [8]

theorem C6_write_ordering_witness :
    ((none : Option SnapErr) = none → ∃ lo hi aik aiv mk mv, ∃ ps : List KVPair,
        ([KVOp.rangeDelete [1] [2] false, KVOp.set [3] [4] false, KVOp.set [5] [6] false,
          KVOp.set [7] [8] false, KVOp.sync] : List KVOp)
          = KVOp.rangeDelete lo hi false :: KVOp.set aik aiv false ::
            KVOp.set mk mv false ::
            (ps.map (fun p => KVOp.set p.1 p.2 false) ++ [KVOp.sync])) ∧
    ((none : Option SnapErr) ≠ none →
      KVOp.sync ∉ ([KVOp.rangeDelete [1] [2] false, KVOp.set [3] [4] false,
        KVOp.set [5] [6] false, KVOp.set [7] [8] false, KVOp.sync] : List KVOp)) :=
  C6_write_ordering 9 ⟨c6file, []⟩ _ none (by decide)

end MCube
